import Mathlib

/-!
Shallow embedding of the pattern-analogy projection engine of
`src/data_utils.py` (function `generate_future_projections_from_point`).

Modelling conventions:
* a price point `{date, close}` becomes `PricePoint` with the timestamp in
  whole minutes (`Int`) — the source parses/serialises dates at minute
  resolution — and the close price as an exact rational;
* Python's `ZeroDivisionError` (raised by float division by `0.0`) becomes
  `Except.error "ZeroDivisionError"`; all normal paths return `Except.ok`;
* Python's insertion-ordered `dict` becomes an association list to which
  entries are appended only when the key is absent;
* `re.finditer` on a literal (escaped) needle yields the left-to-right
  non-overlapping occurrences: each next match is the first occurrence
  starting at or after the end of the previous one.
-/

/- `Rat.mul`, `Rat.add`, `Rat.sub` and `Rat.inv` are `@[irreducible]` upstream,
which blocks `decide`/`rfl` evaluation of the engine on concrete inputs; the
kernel ignores reducibility, so restoring the default locally is sound. -/
attribute [local semireducible] Rat.mul Rat.add Rat.sub Rat.inv

structure PricePoint where
  date : Int
  close : ℚ
deriving DecidableEq, Repr, Inhabited

structure Projection where
  label : String
  data : List PricePoint
  pattern_length : Nat
deriving DecidableEq, Repr, Inhabited

def defaultPoint : PricePoint := ⟨0, 0⟩

/-- The movement string of a segment: one symbol per consecutive pair,
`true` ("U") when the later close is ≥ the earlier one, else `false` ("D").
Source: lines 99–100 and 114–115 of `data_utils.py`. -/
def movementOf (l : List PricePoint) : List Bool :=
  List.zipWith (fun a b => decide (b.close ≥ a.close)) l l.tail

/-- All (possibly overlapping) occurrence positions of `needle` in `hay`,
in increasing order. -/
def occList (needle hay : List Bool) : List Nat :=
  (List.range hay.length).filter (fun p => needle.isPrefixOf (hay.drop p))

/-- Greedy left-to-right selection of non-overlapping occurrences: keep a
position when it starts at or after the end of the previously kept match.
With the sorted occurrence list this is exactly `re.finditer`'s scan for a
non-empty literal pattern. -/
def greedySelect (n : Nat) : List Nat → Nat → List Nat
  | [], _ => []
  | p :: ps, low =>
      if low ≤ p then p :: greedySelect n ps (p + n) else greedySelect n ps low

/-- `re.finditer(re.escape(needle), hay)` match positions (non-empty needle). -/
def reFindAll (needle hay : List Bool) : List Nat :=
  greedySelect needle.length (occList needle hay) 0

/-- The trailing window of up to `min 8 start_idx + 1` points ending at
`start_idx`: `data_subset[-pattern_length-1:]` in the source (lines 89–94). -/
def patternData (stock_data : List PricePoint) (start_idx : Nat) : List PricePoint :=
  let data_subset := stock_data.take (start_idx + 1)
  data_subset.drop (data_subset.length - (min 8 start_idx + 1))

/-- The candidate pattern lengths, in the order tried:
`range(min(L, 8), max(5, min(L-1, 5)), -1)` of the source (line 104),
i.e. `min L 8` descending to `6` (empty when `min L 8 ≤ 5`). -/
def candidateLengths (L : Nat) : List Nat :=
  let start := min L 8
  let stop := max 5 (min (L - 1) 5)
  (List.range' (stop + 1) (start - stop)).reverse

/-- The haystack movement string the source searches in (lines 114–115):
symbols of the first `max 1 (len - pattern_length)` points. -/
def searchString (stock_data : List PricePoint) (pattern_length : Nat) : List Bool :=
  movementOf (stock_data.take (max 1 (stock_data.length - pattern_length)))

/-- The occurrence positions found for one candidate `length` (line 117):
the trailing `length` symbols of the query searched in the haystack. -/
def occurrencesFor (stock_data : List PricePoint) (pattern_length : Nat)
    (result_string : List Bool) (length : Nat) : List Nat :=
  reFindAll (result_string.drop (result_string.length - length))
    (searchString stock_data pattern_length)

/-- Record the qualifying occurrences of one candidate length into the
insertion-ordered dictionary (lines 119–121): a position is appended when it
is not yet present and `position + pattern_length < start_idx`. -/
def insertMatches (start_idx pattern_length length : Nat) (occs : List Nat)
    (dict : List (Nat × Nat)) : List (Nat × Nat) :=
  occs.foldl
    (fun d m =>
      if (d.lookup m).isNone ∧ m + pattern_length < start_idx
      then d ++ [(m, length)] else d)
    dict

/-- One iteration of the candidate-length loop body (lines 108–121), after
the two `continue`/`return` guards. -/
def stepLength (stock_data : List PricePoint) (start_idx pattern_length : Nat)
    (result_string : List Bool) (dict : List (Nat × Nat)) (length : Nat) :
    List (Nat × Nat) :=
  let occs := occurrencesFor stock_data pattern_length result_string length
  if 1 < occs.length then insertMatches start_idx pattern_length length occs dict
  else dict

/-- The candidate-length loop of lines 103–121, iterating the remaining
candidate lengths over the accumulated dictionary. `none` models the early
`return []` taken when `len(stock_data) <= 1` inside the loop body
(unreachable in practice, kept for faithfulness): it aborts the remaining
iterations, as the `return` does. -/
def dictLoop (stock_data : List PricePoint) (start_idx pattern_length : Nat)
    (result_string : List Bool) : List Nat → List (Nat × Nat) → Option (List (Nat × Nat))
  | [], dict => some dict
  | length :: rest, dict =>
      if length = 0 then dictLoop stock_data start_idx pattern_length result_string rest dict
      else if stock_data.length ≤ 1 then none
      else dictLoop stock_data start_idx pattern_length result_string rest
        (stepLength stock_data start_idx pattern_length result_string dict length)

/-- The dictionary of pattern matches built by lines 103–121, starting from
the empty dictionary and trying every candidate length in order. -/
def buildDict (stock_data : List PricePoint) (start_idx pattern_length : Nat)
    (result_string : List Bool) : Option (List (Nat × Nat)) :=
  dictLoop stock_data start_idx pattern_length result_string
    (candidateLengths result_string.length) []

/-- The projected timestamp appended at step `i` (lines 144–169).
`future_dates` is the list built so far; all date arithmetic is in minutes
(`timedelta(hours=1)` = 60). -/
def nextDate (stock_data : List PricePoint) (start_idx : Nat)
    (future_dates : List Int) (i : Nat) : Int :=
  if 0 < i then
    if 1 < stock_data.length then
      let curr_date := (stock_data.getD 0 defaultPoint).date
      let next_date := (stock_data.getD 1 defaultPoint).date
      future_dates.getLastD 0 + (curr_date - next_date)
    else future_dates.getLastD 0 + 60
  else
    if start_idx + 1 < stock_data.length then
      (stock_data.getD (start_idx + 1) defaultPoint).date
    else if 1 < stock_data.length then
      let date1 := (stock_data.getD 0 defaultPoint).date
      let date2 := (stock_data.getD 1 defaultPoint).date
      future_dates.getLastD 0 + ((date2 - date1).natAbs : Int)
    else future_dates.getLastD 0 + 60

/-- The reconstruction loop (lines 138–169): at step `i`, when the pair
`(key + pattern_length + i, key + pattern_length + i + 1)` lies in range,
multiply the running price by `1 + (price[k] - price[k+1]) / price[k+1]`
and append the matching projected date; a zero denominator raises. -/
def reconLoop (stock_data : List PricePoint) (start_idx key pattern_length : Nat) :
    Nat → Nat → List ℚ × List Int → Except String (List ℚ × List Int)
  | 0, _, acc => .ok acc
  | fuel + 1, i, (future_prices, future_dates) =>
      let pattern_idx := key + pattern_length + i
      if pattern_idx + 1 < stock_data.length then
        let b := (stock_data.getD (pattern_idx + 1) defaultPoint).close
        if b = 0 then .error "ZeroDivisionError"
        else
          let a := (stock_data.getD pattern_idx defaultPoint).close
          let price_change := (a - b) / b
          reconLoop stock_data start_idx key pattern_length fuel (i + 1)
            (future_prices ++ [future_prices.getLastD 0 * (1 + price_change)],
             future_dates ++ [nextDate stock_data start_idx future_dates i])
      else
        reconLoop stock_data start_idx key pattern_length fuel (i + 1)
          (future_prices, future_dates)

/-- Build one projection for a matched key (lines 132–178): look the key's
recorded length up, run the reconstruction loop starting from the anchor's
price and date, and zip dates with prices into the output points. -/
def projOfKey (stock_data : List PricePoint) (start_idx future_points : Nat)
    (dict : List (Nat × Nat)) (start_close : ℚ) (start_date : Int) (key : Nat) :
    Except String Projection :=
  let pattern_length := (dict.lookup key).getD 0
  match reconLoop stock_data start_idx key pattern_length future_points 0
      ([start_close], [start_date]) with
  | .error e => .error e
  | .ok (future_prices, future_dates) =>
      let n := stock_data.length
      .ok { label := s!"Projection from point {start_idx + 1}/{n}"
          , data := List.zipWith (fun d c => PricePoint.mk d c) future_dates future_prices
          , pattern_length := pattern_length }

/-- The loop over the selected keys (lines 132–178); an error raised while
reconstructing any projection aborts the whole call, as in the source. -/
def projectionsLoop (stock_data : List PricePoint) (start_idx future_points : Nat)
    (dict : List (Nat × Nat)) (start_close : ℚ) (start_date : Int) :
    List Nat → Except String (List Projection)
  | [] => .ok []
  | key :: ks =>
      match projOfKey stock_data start_idx future_points dict start_close start_date key with
      | .error e => .error e
      | .ok proj =>
          match projectionsLoop stock_data start_idx future_points dict
              start_close start_date ks with
          | .error e => .error e
          | .ok rest => .ok (proj :: rest)

/-- `generate_future_projections_from_point(stock_data, start_idx,
future_points, num_lines)` of `src/data_utils.py`, lines 72–180. -/
def generate_future_projections_from_point (stock_data : List PricePoint)
    (start_idx : Nat) (future_points : Nat := 10) (num_lines : Nat := 1) :
    Except String (List Projection) :=
  if stock_data.isEmpty ∨ stock_data.length ≤ start_idx then .ok []
  else
    let pattern_data := patternData stock_data start_idx
    if pattern_data.length ≤ 1 then .ok []
    else
      let result_string := movementOf pattern_data
      match buildDict stock_data start_idx (min 8 start_idx) result_string with
      | none => .ok []
      | some index_dict =>
          let start_point := stock_data.getD start_idx defaultPoint
          let matched_keys := (index_dict.map Prod.fst).take num_lines
          projectionsLoop stock_data start_idx future_points index_dict
            start_point.close start_point.date matched_keys

/-- The dictionary of accepted matches actually used by the engine
(empty on the degenerate early-return paths). -/
def engineDict (stock_data : List PricePoint) (start_idx : Nat) : List (Nat × Nat) :=
  if stock_data.isEmpty ∨ stock_data.length ≤ start_idx then []
  else if (patternData stock_data start_idx).length ≤ 1 then []
  else
    (buildDict stock_data start_idx (min 8 start_idx)
      (movementOf (patternData stock_data start_idx))).getD []

/-- Extract the projection list of a successful run ( `[]` on error ). -/
def projsOf (e : Except String (List Projection)) : List Projection :=
  match e with
  | .ok l => l
  | .error _ => []

/-- Reference path reconstruction, following the spec's wording (§4 step 4):
for each of `fuel` future steps take the historical pair at `(base, base+1)`,
stop at the first step whose second index is out of range, and otherwise
multiply the running price by `1 + (price[k] - price[k+1]) / price[k+1]`. -/
def specFuturePrices (stock_data : List PricePoint) (base : Nat) :
    Nat → ℚ → List ℚ
  | 0, _ => []
  | fuel + 1, prev =>
      if base + 1 < stock_data.length then
        let a := (stock_data.getD base defaultPoint).close
        let b := (stock_data.getD (base + 1) defaultPoint).close
        let next := prev * (1 + (a - b) / b)
        next :: specFuturePrices stock_data (base + 1) fuel next
      else []

-- scratch test data -------------------------------------------------------

def data30 : List PricePoint :=
  (List.range 30).map (fun i => ⟨60 * (i : Int), if i % 2 = 0 then (2 : ℚ) else 1⟩)

def data30z : List PricePoint :=
  (List.range 30).map (fun i =>
    ⟨60 * (i : Int), if i = 9 then (0 : ℚ) else if i % 2 = 0 then (2 : ℚ) else 1⟩)

def data16 : List PricePoint :=
  (List.range 16).map (fun i =>
    ⟨60 * (i : Int), if i ≤ 9 then ((i : ℚ) + 1) else if i = 10 then 5 else (i : ℚ) - 4⟩)

/-- The projections the engine returns on `data30` with anchor 20, horizon 3
and two lines (used as a concrete evaluation point). -/
def P30 : List Projection :=
  projsOf (generate_future_projections_from_point data30 20 3 2)

/-- The first of those projections. -/
def p30 : Projection := P30.headD default

-- Basic structural lemmas ---------------------------------------------------

lemma movementOf_length (l : List PricePoint) :
    (movementOf l).length = l.length - 1 := by
  simp [movementOf, List.length_tail]

lemma patternData_length_le (sd : List PricePoint) (si : Nat) :
    (patternData sd si).length ≤ min 8 si + 1 := by
  simp only [patternData, List.length_drop]
  omega

lemma patternData_length (sd : List PricePoint) (si : Nat) (h : si < sd.length) :
    (patternData sd si).length = min 8 si + 1 := by
  simp only [patternData, List.length_drop, List.length_take]
  omega

lemma candidateLengths_mem {L len : Nat} (h : len ∈ candidateLengths L) :
    6 ≤ len ∧ len ≤ min L 8 := by
  simp only [candidateLengths, List.mem_reverse, List.mem_range'_1] at h
  omega

lemma getLastD_mem {α : Type} (l : List α) (d : α) (h : l ≠ []) :
    l.getLastD d ∈ l := by
  induction l generalizing d with
  | nil => exact absurd rfl h
  | cons a t ih =>
    cases t with
    | nil => simp [List.getLastD]
    | cons b t' =>
      have : List.getLastD (a :: b :: t') d = List.getLastD (b :: t') a := rfl
      rw [this]
      exact List.mem_cons_of_mem a (ih a (by simp))

lemma getD_mem {l : List PricePoint} {j : Nat} (h : j < l.length) :
    l.getD j defaultPoint ∈ l := by
  rw [List.getD_eq_getElem?_getD, List.getElem?_eq_getElem h]
  exact List.getElem_mem h

-- List.lookup lemmas ---------------------------------------------------------

lemma lookup_isNone_iff (d : List (Nat × Nat)) (a : Nat) :
    (d.lookup a).isNone = true ↔ a ∉ d.map Prod.fst := by
  induction d with
  | nil => simp [List.lookup]
  | cons p t ih =>
    by_cases hpa : a = p.1
    · subst hpa
      simp [List.lookup]
    · have hba : (a == p.1) = false := by simpa using hpa
      simp only [List.lookup, hba, List.map_cons, List.mem_cons]
      rw [ih]
      constructor
      · intro hn hc
        rcases hc with hc | hc
        · exact hpa hc
        · exact hn hc
      · intro hn hc
        exact hn (Or.inr hc)

lemma lookup_mem {d : List (Nat × Nat)} {a v : Nat} (h : d.lookup a = some v) :
    (a, v) ∈ d := by
  induction d with
  | nil => simp [List.lookup] at h
  | cons p t ih =>
    by_cases hpa : a = p.1
    · subst hpa
      simp only [List.lookup, beq_self_eq_true] at h
      cases h
      exact List.mem_cons_self _ _
    · have hba : (a == p.1) = false := by simpa using hpa
      simp only [List.lookup, hba] at h
      exact List.mem_cons_of_mem _ (ih h)

lemma mem_keys_lookup {d : List (Nat × Nat)} {a : Nat} (h : a ∈ d.map Prod.fst) :
    ∃ v, d.lookup a = some v := by
  have := (lookup_isNone_iff d a).not
  rcases ho : d.lookup a with _ | v
  · exfalso
    exact ((lookup_isNone_iff d a).mp (by simp [ho])) h
  · exact ⟨v, rfl⟩

lemma lookup_of_nodup_mem {d : List (Nat × Nat)} (hnd : (d.map Prod.fst).Nodup)
    {pl : Nat × Nat} (hm : pl ∈ d) : d.lookup pl.1 = some pl.2 := by
  induction d with
  | nil => simp at hm
  | cons p t ih =>
    simp only [List.map_cons, List.nodup_cons] at hnd
    rcases List.mem_cons.mp hm with hm | hm
    · subst hm
      simp [List.lookup]
    · have hne : pl.1 ≠ p.1 := by
        intro hequ
        exact hnd.1 (hequ ▸ List.mem_map_of_mem Prod.fst hm)
      have hba : (pl.1 == p.1) = false := by simpa using hne
      simp only [List.lookup, hba]
      exact ih hnd.2 hm

-- Dictionary-construction lemmas --------------------------------------------

lemma insertMatches_mem {si L len : Nat} {occs : List Nat}
    {dict : List (Nat × Nat)} {pl : Nat × Nat}
    (h : pl ∈ insertMatches si L len occs dict) :
    pl ∈ dict ∨ (pl.2 = len ∧ pl.1 + L < si) := by
  induction occs generalizing dict with
  | nil => exact Or.inl h
  | cons m ms ih =>
    simp only [insertMatches, List.foldl_cons] at h
    rcases ih (by simpa [insertMatches] using h) with h' | h'
    · by_cases hc : (dict.lookup m).isNone = true ∧ m + L < si
      · rw [if_pos hc] at h'
        rcases List.mem_append.mp h' with h'' | h''
        · exact Or.inl h''
        · rcases List.mem_singleton.mp h'' with rfl
          exact Or.inr ⟨rfl, hc.2⟩
      · rw [if_neg hc] at h'
        exact Or.inl h'
    · exact Or.inr h'

lemma insertMatches_nodup {si L len : Nat} {occs : List Nat}
    {dict : List (Nat × Nat)} (h : (dict.map Prod.fst).Nodup) :
    ((insertMatches si L len occs dict).map Prod.fst).Nodup := by
  induction occs generalizing dict with
  | nil => exact h
  | cons m ms ih =>
    simp only [insertMatches, List.foldl_cons]
    apply ih
    by_cases hc : (dict.lookup m).isNone = true ∧ m + L < si
    · rw [if_pos hc]
      have hm : m ∉ dict.map Prod.fst := (lookup_isNone_iff dict m).mp hc.1
      simp only [List.map_append, List.map_cons, List.map_nil]
      rw [List.nodup_append]
      refine ⟨h, List.nodup_singleton m, ?_⟩
      intro a ha hb
      rcases List.mem_singleton.mp hb with rfl
      exact hm ha
    · rw [if_neg hc]
      exact h

lemma stepLength_mem {sd : List PricePoint} {si L : Nat} {rs : List Bool}
    {dict : List (Nat × Nat)} {len : Nat} {pl : Nat × Nat}
    (h : pl ∈ stepLength sd si L rs dict len) :
    pl ∈ dict ∨ (pl.2 = len ∧ pl.1 + L < si) := by
  simp only [stepLength] at h
  split at h
  · exact insertMatches_mem h
  · exact Or.inl h

lemma stepLength_nodup {sd : List PricePoint} {si L : Nat} {rs : List Bool}
    {dict : List (Nat × Nat)} {len : Nat} (h : (dict.map Prod.fst).Nodup) :
    ((stepLength sd si L rs dict len).map Prod.fst).Nodup := by
  simp only [stepLength]
  split
  · exact insertMatches_nodup h
  · exact h

lemma dictLoop_mem {sd : List PricePoint} {si L : Nat} {rs : List Bool} :
    ∀ {ls : List Nat} {dict dict' : List (Nat × Nat)},
      dictLoop sd si L rs ls dict = some dict' → ∀ {pl : Nat × Nat}, pl ∈ dict' →
      pl ∈ dict ∨ ∃ len ∈ ls, pl.2 = len ∧ pl.1 + L < si := by
  intro ls
  induction ls with
  | nil =>
    intro dict dict' h pl hm
    simp only [dictLoop] at h
    cases h
    exact Or.inl hm
  | cons len rest ih =>
    intro dict dict' h pl hm
    simp only [dictLoop] at h
    split at h
    · rcases ih h hm with h' | ⟨l', hl', hp⟩
      · exact Or.inl h'
      · exact Or.inr ⟨l', List.mem_cons_of_mem _ hl', hp⟩
    · split at h
      · cases h
      · rcases ih h hm with h' | ⟨l', hl', hp⟩
        · rcases stepLength_mem h' with h'' | h''
          · exact Or.inl h''
          · exact Or.inr ⟨len, List.mem_cons_self _ _, h''⟩
        · exact Or.inr ⟨l', List.mem_cons_of_mem _ hl', hp⟩

lemma dictLoop_nodup {sd : List PricePoint} {si L : Nat} {rs : List Bool} :
    ∀ {ls : List Nat} {dict dict' : List (Nat × Nat)},
      (dict.map Prod.fst).Nodup → dictLoop sd si L rs ls dict = some dict' →
      (dict'.map Prod.fst).Nodup := by
  intro ls
  induction ls with
  | nil =>
    intro dict dict' hnd h
    simp only [dictLoop] at h
    cases h
    exact hnd
  | cons len rest ih =>
    intro dict dict' hnd h
    simp only [dictLoop] at h
    split at h
    · exact ih hnd h
    · split at h
      · cases h
      · exact ih (stepLength_nodup hnd) h

lemma buildDict_mem {sd : List PricePoint} {si L : Nat} {rs : List Bool}
    {dict : List (Nat × Nat)} (h : buildDict sd si L rs = some dict)
    {pl : Nat × Nat} (hm : pl ∈ dict) :
    pl.1 + L < si ∧ 6 ≤ pl.2 ∧ pl.2 ≤ min rs.length 8 := by
  rcases dictLoop_mem h hm with h' | ⟨len, hlen, hv, hlt⟩
  · simp at h'
  · rcases candidateLengths_mem hlen with ⟨h6, h8⟩
    exact ⟨hlt, hv ▸ h6, hv ▸ h8⟩

lemma buildDict_nodup {sd : List PricePoint} {si L : Nat} {rs : List Bool}
    {dict : List (Nat × Nat)} (h : buildDict sd si L rs = some dict) :
    (dict.map Prod.fst).Nodup := by
  exact dictLoop_nodup (by simp) h

-- Reconstruction-loop lemmas ------------------------------------------------

lemma reconLoop_head {sd : List PricePoint} {si key plen : Nat} :
    ∀ {fuel i : Nat} {p₀ : ℚ} {ps : List ℚ} {d₀ : Int} {ds : List Int}
      {P : List ℚ} {D : List Int},
      reconLoop sd si key plen fuel i (p₀ :: ps, d₀ :: ds) = .ok (P, D) →
      ∃ ps' ds', P = p₀ :: ps' ∧ D = d₀ :: ds' := by
  intro fuel
  induction fuel with
  | zero =>
    intro i p₀ ps d₀ ds P D h
    simp only [reconLoop] at h
    cases h
    exact ⟨ps, ds, rfl, rfl⟩
  | succ n ih =>
    intro i p₀ ps d₀ ds P D h
    simp only [reconLoop] at h
    split at h
    · split at h
      · cases h
      · exact ih (by simpa using h)
    · exact ih h

lemma reconLoop_length_le {sd : List PricePoint} {si key plen : Nat} :
    ∀ {fuel i : Nat} {ps : List ℚ} {ds : List Int} {P : List ℚ} {D : List Int},
      reconLoop sd si key plen fuel i (ps, ds) = .ok (P, D) →
      P.length ≤ ps.length + fuel := by
  intro fuel
  induction fuel with
  | zero =>
    intro i ps ds P D h
    simp only [reconLoop] at h
    cases h
    omega
  | succ n ih =>
    intro i ps ds P D h
    simp only [reconLoop] at h
    split at h
    · split at h
      · cases h
      · have := ih h
        simp only [List.length_append, List.length_singleton] at this
        omega
    · have := ih h
      omega

lemma reconLoop_length_eq {sd : List PricePoint} {si key plen : Nat} :
    ∀ {fuel i : Nat} {ps : List ℚ} {ds : List Int} {P : List ℚ} {D : List Int},
      ps.length = ds.length →
      reconLoop sd si key plen fuel i (ps, ds) = .ok (P, D) →
      P.length = D.length := by
  intro fuel
  induction fuel with
  | zero =>
    intro i ps ds P D he h
    simp only [reconLoop] at h
    cases h
    exact he
  | succ n ih =>
    intro i ps ds P D he h
    simp only [reconLoop] at h
    split at h
    · split at h
      · cases h
      · exact ih (by simp [he]) h
    · exact ih he h

lemma reconLoop_ok_of_nonzero (sd : List PricePoint) (si key plen : Nat)
    (hz : ∀ p ∈ sd, p.close ≠ 0) :
    ∀ (fuel i : Nat) (ps : List ℚ) (ds : List Int),
      ∃ out, reconLoop sd si key plen fuel i (ps, ds) = .ok out := by
  intro fuel
  induction fuel with
  | zero => exact fun i ps ds => ⟨(ps, ds), rfl⟩
  | succ n ih =>
    intro i ps ds
    by_cases hr : key + plen + i + 1 < sd.length
    · have hb : (sd.getD (key + plen + i + 1) defaultPoint).close ≠ 0 :=
        hz _ (getD_mem hr)
      rcases ih (i + 1)
          (ps ++ [ps.getLastD 0 *
            (1 + ((sd.getD (key + plen + i) defaultPoint).close -
              (sd.getD (key + plen + i + 1) defaultPoint).close) /
              (sd.getD (key + plen + i + 1) defaultPoint).close)])
          (ds ++ [nextDate sd si ds i]) with ⟨out, hout⟩
      refine ⟨out, ?_⟩
      simp only [reconLoop, if_pos hr, if_neg hb]
      exact hout
    · rcases ih (i + 1) ps ds with ⟨out, hout⟩
      refine ⟨out, ?_⟩
      simp only [reconLoop, if_neg hr]
      exact hout

lemma reconLoop_pos {sd : List PricePoint} {si key plen : Nat}
    (hsd : ∀ p ∈ sd, 0 < p.close) :
    ∀ {fuel i : Nat} {ps : List ℚ} {ds : List Int} {P : List ℚ} {D : List Int},
      ps ≠ [] → (∀ q ∈ ps, 0 < q) →
      reconLoop sd si key plen fuel i (ps, ds) = .ok (P, D) →
      ∀ q ∈ P, 0 < q := by
  intro fuel
  induction fuel with
  | zero =>
    intro i ps ds P D hne hpos h
    simp only [reconLoop] at h
    cases h
    exact hpos
  | succ n ih =>
    intro i ps ds P D hne hpos h
    simp only [reconLoop] at h
    split at h
    · rename_i hr
      split at h
      · cases h
      · rename_i hb0
        have hb : 0 < (sd.getD (key + plen + i + 1) defaultPoint).close :=
          hsd _ (getD_mem hr)
        have ha : 0 < (sd.getD (key + plen + i) defaultPoint).close :=
          hsd _ (getD_mem (by omega))
        have hlast : 0 < ps.getLastD 0 := hpos _ (getLastD_mem ps 0 hne)
        have hfac :
            (1 + ((sd.getD (key + plen + i) defaultPoint).close -
              (sd.getD (key + plen + i + 1) defaultPoint).close) /
              (sd.getD (key + plen + i + 1) defaultPoint).close) =
            (sd.getD (key + plen + i) defaultPoint).close /
              (sd.getD (key + plen + i + 1) defaultPoint).close := by
          rw [sub_div, div_self hb0]
          ring
        have hx : 0 < ps.getLastD 0 *
            (1 + ((sd.getD (key + plen + i) defaultPoint).close -
              (sd.getD (key + plen + i + 1) defaultPoint).close) /
              (sd.getD (key + plen + i + 1) defaultPoint).close) := by
          rw [hfac]
          exact mul_pos hlast (div_pos ha hb)
        refine ih (by simp) ?_ h
        intro q hq
        rcases List.mem_append.mp hq with hq | hq
        · exact hpos q hq
        · rcases List.mem_singleton.mp hq with rfl
          exact hx
    · exact ih hne hpos h

lemma reconLoop_stall {sd : List PricePoint} {si key plen : Nat} :
    ∀ {fuel i : Nat} {ps : List ℚ} {ds : List Int},
      sd.length ≤ key + plen + i + 1 →
      reconLoop sd si key plen fuel i (ps, ds) = .ok (ps, ds) := by
  intro fuel
  induction fuel with
  | zero => intro i ps ds _; rfl
  | succ n ih =>
    intro i ps ds hle
    have hr : ¬ (key + plen + i + 1 < sd.length) := by omega
    simp only [reconLoop, if_neg hr]
    exact ih (by omega)

lemma reconLoop_spec {sd : List PricePoint} {si key plen : Nat} :
    ∀ {fuel i : Nat} {ps : List ℚ} {ds : List Int} {P : List ℚ} {D : List Int},
      reconLoop sd si key plen fuel i (ps, ds) = .ok (P, D) →
      P = ps ++ specFuturePrices sd (key + plen + i) fuel (ps.getLastD 0) := by
  intro fuel
  induction fuel with
  | zero =>
    intro i ps ds P D h
    simp only [reconLoop] at h
    cases h
    simp [specFuturePrices]
  | succ n ih =>
    intro i ps ds P D h
    simp only [reconLoop] at h
    split at h
    · rename_i hr
      split at h
      · cases h
      · have hP := ih h
        rw [hP, List.getLastD_concat]
        simp only [specFuturePrices, if_pos hr]
        rw [List.append_assoc]
        have hidx : key + plen + (i + 1) = key + plen + i + 1 := by omega
        rw [hidx]
        rfl
    · rename_i hr
      rw [reconLoop_stall (by omega)] at h
      cases h
      simp [specFuturePrices, if_neg hr]

-- Projection-assembly lemmas ------------------------------------------------

lemma projOfKey_ok {sd : List PricePoint} {si fp : Nat} {dict : List (Nat × Nat)}
    {sc : ℚ} {sdt : Int} {key : Nat} {proj : Projection}
    (h : projOfKey sd si fp dict sc sdt key = .ok proj) :
    ∃ P D, reconLoop sd si key ((dict.lookup key).getD 0) fp 0 ([sc], [sdt]) = .ok (P, D) ∧
      proj.data = List.zipWith (fun d c => PricePoint.mk d c) D P ∧
      proj.pattern_length = (dict.lookup key).getD 0 := by
  simp only [projOfKey] at h
  split at h
  · cases h
  · rename_i P D hout
    cases h
    exact ⟨P, D, hout, rfl, rfl⟩

lemma projOfKey_ok_of_nonzero (sd : List PricePoint) (si fp : Nat)
    (dict : List (Nat × Nat)) (sc : ℚ) (sdt : Int) (key : Nat)
    (hz : ∀ p ∈ sd, p.close ≠ 0) :
    ∃ proj, projOfKey sd si fp dict sc sdt key = .ok proj := by
  rcases reconLoop_ok_of_nonzero sd si key ((dict.lookup key).getD 0)
      hz fp 0 [sc] [sdt] with ⟨⟨P, D⟩, hout⟩
  simp only [projOfKey]
  rw [hout]
  exact ⟨_, rfl⟩

lemma projectionsLoop_forall₂ {sd : List PricePoint} {si fp : Nat}
    {dict : List (Nat × Nat)} {sc : ℚ} {sdt : Int} :
    ∀ {keys : List Nat} {projs : List Projection},
      projectionsLoop sd si fp dict sc sdt keys = .ok projs →
      List.Forall₂ (fun k proj => projOfKey sd si fp dict sc sdt k = .ok proj) keys projs := by
  intro keys
  induction keys with
  | nil =>
    intro projs h
    simp only [projectionsLoop] at h
    cases h
    exact List.Forall₂.nil
  | cons k ks ih =>
    intro projs h
    simp only [projectionsLoop] at h
    split at h
    · cases h
    · rename_i proj hproj
      split at h
      · cases h
      · rename_i rest hrest
        cases h
        exact List.Forall₂.cons hproj (ih hrest)

lemma projectionsLoop_ok_of_nonzero (sd : List PricePoint) (si fp : Nat)
    (dict : List (Nat × Nat)) (sc : ℚ) (sdt : Int)
    (hz : ∀ p ∈ sd, p.close ≠ 0) :
    ∀ (keys : List Nat),
      ∃ projs, projectionsLoop sd si fp dict sc sdt keys = .ok projs := by
  intro keys
  induction keys with
  | nil => exact ⟨[], rfl⟩
  | cons k ks ih =>
    rcases projOfKey_ok_of_nonzero sd si fp dict sc sdt k hz with ⟨proj, hproj⟩
    rcases ih with ⟨rest, hrest⟩
    refine ⟨proj :: rest, ?_⟩
    simp only [projectionsLoop, hproj, hrest]

-- Engine case analysis -------------------------------------------------------

lemma gen_eq (sd : List PricePoint) (si fp nl : Nat) :
    generate_future_projections_from_point sd si fp nl =
      if sd.isEmpty = true ∨ sd.length ≤ si then .ok []
      else if (patternData sd si).length ≤ 1 then .ok []
      else
        match buildDict sd si (min 8 si) (movementOf (patternData sd si)) with
        | none => .ok []
        | some index_dict =>
            projectionsLoop sd si fp index_dict (sd.getD si defaultPoint).close
              (sd.getD si defaultPoint).date ((index_dict.map Prod.fst).take nl) := rfl

lemma engineDict_eq (sd : List PricePoint) (si : Nat) :
    engineDict sd si =
      if sd.isEmpty = true ∨ sd.length ≤ si then []
      else if (patternData sd si).length ≤ 1 then []
      else
        (buildDict sd si (min 8 si) (movementOf (patternData sd si))).getD [] := rfl

lemma engine_cases {sd : List PricePoint} {si fp nl : Nat} {projs : List Projection}
    (h : generate_future_projections_from_point sd si fp nl = .ok projs) :
    (engineDict sd si = [] ∧ projs = []) ∨
    (si < sd.length ∧ 1 < (patternData sd si).length ∧
      buildDict sd si (min 8 si) (movementOf (patternData sd si)) = some (engineDict sd si) ∧
      projectionsLoop sd si fp (engineDict sd si) (sd.getD si defaultPoint).close
        (sd.getD si defaultPoint).date
        (((engineDict sd si).map Prod.fst).take nl) = .ok projs) := by
  by_cases h1 : sd.isEmpty = true ∨ sd.length ≤ si
  · rw [gen_eq, if_pos h1] at h
    cases h
    exact Or.inl ⟨by rw [engineDict_eq, if_pos h1], rfl⟩
  · have hsi : si < sd.length := by
      rcases Nat.lt_or_ge si sd.length with h' | h'
      · exact h'
      · exact absurd (Or.inr h') h1
    by_cases h2 : (patternData sd si).length ≤ 1
    · rw [gen_eq, if_neg h1, if_pos h2] at h
      cases h
      exact Or.inl ⟨by rw [engineDict_eq, if_neg h1, if_pos h2], rfl⟩
    · cases hd : buildDict sd si (min 8 si) (movementOf (patternData sd si)) with
      | none =>
        rw [gen_eq, if_neg h1, if_neg h2, hd] at h
        have h' : Except.ok ([] : List Projection) = Except.ok projs := h
        cases h'
        refine Or.inl ⟨?_, rfl⟩
        rw [engineDict_eq, if_neg h1, if_neg h2, hd]
        rfl
      | some dict =>
        rw [gen_eq, if_neg h1, if_neg h2, hd] at h
        have h' : projectionsLoop sd si fp dict (sd.getD si defaultPoint).close
            (sd.getD si defaultPoint).date ((dict.map Prod.fst).take nl) = .ok projs := h
        have hed : engineDict sd si = dict := by
          rw [engineDict_eq, if_neg h1, if_neg h2, hd]
          rfl
        rw [hed]
        exact Or.inr ⟨hsi, by omega, rfl, h'⟩

lemma engine_ok_of_nonzero (sd : List PricePoint) (si fp nl : Nat)
    (hz : ∀ p ∈ sd, p.close ≠ 0) :
    ∃ projs, generate_future_projections_from_point sd si fp nl = .ok projs := by
  by_cases h1 : sd.isEmpty = true ∨ sd.length ≤ si
  · exact ⟨[], by rw [gen_eq, if_pos h1]⟩
  · by_cases h2 : (patternData sd si).length ≤ 1
    · exact ⟨[], by rw [gen_eq, if_neg h1, if_pos h2]⟩
    · cases hd : buildDict sd si (min 8 si) (movementOf (patternData sd si)) with
      | none => exact ⟨[], by rw [gen_eq, if_neg h1, if_neg h2, hd]⟩
      | some dict =>
        rcases projectionsLoop_ok_of_nonzero sd si fp dict
            (sd.getD si defaultPoint).close (sd.getD si defaultPoint).date
            hz ((dict.map Prod.fst).take nl) with ⟨projs, hPL⟩
        refine ⟨projs, ?_⟩
        rw [gen_eq, if_neg h1, if_neg h2, hd]
        exact hPL

-- Keys / entries correspondence ----------------------------------------------

lemma take_keys_forall₂ :
    ∀ (d : List (Nat × Nat)) (big : List (Nat × Nat)),
      (∀ pl ∈ d, big.lookup pl.1 = some pl.2) → ∀ (n : Nat),
      List.Forall₂ (fun (pl : Nat × Nat) (k : Nat) => pl.1 = k ∧ big.lookup k = some pl.2)
        (d.take n) ((d.map Prod.fst).take n) := by
  intro d
  induction d with
  | nil => intro big _ n; simp
  | cons p t ih =>
    intro big hbig n
    cases n with
    | zero => simp
    | succ m =>
      simp only [List.take_succ_cons, List.map_cons]
      exact List.Forall₂.cons ⟨rfl, hbig p (List.mem_cons_self _ _)⟩
        (ih big (fun pl hm => hbig pl (List.mem_cons_of_mem _ hm)) m)

lemma forall₂_compose {α β γ : Type} {R : α → β → Prop} {S : β → γ → Prop} :
    ∀ {l₁ : List α} {l₂ : List β} {l₃ : List γ},
      List.Forall₂ R l₁ l₂ → List.Forall₂ S l₂ l₃ →
      List.Forall₂ (fun a c => ∃ b, R a b ∧ S b c) l₁ l₃ := by
  intro l₁
  induction l₁ with
  | nil =>
    intro l₂ l₃ h₁ h₂
    cases h₁
    cases h₂
    exact List.Forall₂.nil
  | cons a t ih =>
    intro l₂ l₃ h₁ h₂
    cases h₁ with
    | cons hR h₁' =>
      cases h₂ with
      | cons hS h₂' =>
        exact List.Forall₂.cons ⟨_, hR, hS⟩ (ih h₁' h₂')

/-- The combined correspondence: when the engine succeeds with a non-degenerate
run, the selected dictionary entries and the returned projections line up
pairwise: the projection is built by `projOfKey` from the entry's key, and the
entry's value is the key's lookup. -/
lemma engine_forall₂ {sd : List PricePoint} {si fp nl : Nat} {projs : List Projection}
    (hbd : buildDict sd si (min 8 si) (movementOf (patternData sd si)) = some (engineDict sd si))
    (hPL : projectionsLoop sd si fp (engineDict sd si) (sd.getD si defaultPoint).close
        (sd.getD si defaultPoint).date
        (((engineDict sd si).map Prod.fst).take nl) = .ok projs) :
    List.Forall₂ (fun (pl : Nat × Nat) proj =>
        (engineDict sd si).lookup pl.1 = some pl.2 ∧
        projOfKey sd si fp (engineDict sd si) (sd.getD si defaultPoint).close
          (sd.getD si defaultPoint).date pl.1 = .ok proj)
      ((engineDict sd si).take nl) projs := by
  have hnd := buildDict_nodup hbd
  have h₁ := take_keys_forall₂ (engineDict sd si) (engineDict sd si)
    (fun pl hm => lookup_of_nodup_mem hnd hm) nl
  have h₂ := projectionsLoop_forall₂ hPL
  have h₃ := forall₂_compose h₁ h₂
  refine List.Forall₂.imp ?_ h₃
  intro pl proj hc
  rcases hc with ⟨k, ⟨hk, hlk⟩, hpk⟩
  subst hk
  exact ⟨hlk, hpk⟩

-- zipWith lemmas --------------------------------------------------------------

lemma mem_zipWith_close :
    ∀ {D : List Int} {P : List ℚ} {pt : PricePoint},
      pt ∈ List.zipWith (fun d c => PricePoint.mk d c) D P → pt.close ∈ P := by
  intro D
  induction D with
  | nil => intro P pt h; simp at h
  | cons d D' ih =>
    intro P pt h
    cases P with
    | nil => simp at h
    | cons c P' =>
      simp only [List.zipWith_cons_cons, List.mem_cons] at h
      rcases h with h | h
      · subst h
        exact List.mem_cons_self _ _
      · exact List.mem_cons_of_mem _ (ih h)

lemma map_close_zipWith :
    ∀ {D : List Int} {P : List ℚ}, D.length = P.length →
      (List.zipWith (fun d c => PricePoint.mk d c) D P).map
        (fun pt => pt.close) = P := by
  intro D
  induction D with
  | nil =>
    intro P h
    cases P with
    | nil => rfl
    | cons c P' => simp at h
  | cons d D' ih =>
    intro P h
    cases P with
    | nil => simp at h
    | cons c P' =>
      simp only [List.zipWith_cons_cons, List.map_cons]
      rw [ih (by simpa using h)]

lemma forall₂_mem_right {α β : Type} {R : α → β → Prop} :
    ∀ {l₁ : List α} {l₂ : List β}, List.Forall₂ R l₁ l₂ →
      ∀ {b : β}, b ∈ l₂ → ∃ a, a ∈ l₁ ∧ R a b := by
  intro l₁ l₂ h
  induction h with
  | nil => intro b hb; simp at hb
  | cons hR hF ih =>
    intro b hb
    rcases List.mem_cons.mp hb with rfl | hb
    · exact ⟨_, List.mem_cons_self _ _, hR⟩
    · rcases ih hb with ⟨a, ha, hab⟩
      exact ⟨a, List.mem_cons_of_mem _ ha, hab⟩

lemma forall₂_map_eq {α β γ : Type} {R : α → β → Prop} {f : α → γ} {g : β → γ} :
    ∀ {l₁ : List α} {l₂ : List β}, List.Forall₂ R l₁ l₂ →
      (∀ a b, R a b → f a = g b) → l₁.map f = l₂.map g := by
  intro l₁ l₂ h hfg
  induction h with
  | nil => rfl
  | cons hR hF ih =>
    simp only [List.map_cons]
    rw [hfg _ _ hR, ih]

lemma dictLoop_no_insert (sd : List PricePoint) (si L : Nat) (rs : List Bool) :
    ∀ (ls : List Nat) (dict : List (Nat × Nat)),
      (∀ len ∈ ls, (occurrencesFor sd L rs len).length ≤ 1) →
      dictLoop sd si L rs ls dict = none ∨ dictLoop sd si L rs ls dict = some dict := by
  intro ls
  induction ls with
  | nil => intro dict _; exact Or.inr rfl
  | cons len rest ih =>
    intro dict hocc
    simp only [dictLoop]
    split
    · exact ih dict (fun l hl => hocc l (List.mem_cons_of_mem _ hl))
    · split
      · exact Or.inl rfl
      · have h1 : ¬ (1 < (occurrencesFor sd L rs len).length) := by
          have := hocc len (List.mem_cons_self _ _)
          omega
        have hstep : stepLength sd si L rs dict len = dict := by
          simp only [stepLength, if_neg h1]
        rw [hstep]
        exact ih dict (fun l hl => hocc l (List.mem_cons_of_mem _ hl))

-- ============================================================================
-- Claim theorems
-- ============================================================================

/-- C1 (counterexample): the claim "the engine never raises; a zero
denominator price in the fractional-change computation yields an empty or
partial result" is false on the code: on `data30z` (whose point 9 has price
0, reached as the denominator of the first reconstruction step of the match
at position 0) the call raises Python's `ZeroDivisionError`, modelled here
as `Except.error`. -/
theorem zero_price_raises_division_error :
    generate_future_projections_from_point data30z 20 3 1 =
      Except.error "ZeroDivisionError" := by rfl

/-- C1 (amended): for every history whose prices are all nonzero, the engine
never raises — every degenerate input (empty history, out-of-range anchor,
too-short window, no qualifying matches) yields an `Except.ok` result (empty
or partial), and no division by zero occurs. -/
theorem engine_total_on_nonzero_prices (sd : List PricePoint) (si fp nl : Nat)
    (h : ∀ p ∈ sd, p.close ≠ 0) :
    ∃ projs, generate_future_projections_from_point sd si fp nl = .ok projs :=
  engine_ok_of_nonzero sd si fp nl h

theorem engine_total_on_nonzero_prices_witness :
    (∀ p ∈ data30, p.close ≠ 0) ∧
      ∃ projs, generate_future_projections_from_point data30 20 3 2 = .ok projs :=
  ⟨by decide, engine_total_on_nonzero_prices data30 20 3 2 (by decide)⟩

/-- C2 (code evaluation at the failing input): on `data30`, whose timestamps
ascend by 60 minutes, every returned projection's timestamps are
`[1200, 1260, 1200, 1140]`: the first future step correctly takes the
anchor's successor (1260), but each subsequent step adds
`history[0].date - history[1].date = -60`, so the projected timestamps move
backward — contradicting the claim that subsequent increments are
forward-moving and non-negative. -/
theorem projected_timestamps_move_backward :
    (projsOf (generate_future_projections_from_point data30 20 3 2)).map
        (fun proj => proj.data.map (fun pt => pt.date)) =
      [[1200, 1260, 1200, 1140], [1200, 1260, 1200, 1140]] := by rfl

/-- C3: every match `(position, length)` accepted into the engine's match
dictionary satisfies `position + length < anchor_index`: the match, with its
recorded pattern span, lies strictly before the anchor. (The returned
projections are built exactly from the first `max_lines` of these entries;
the code's filter uses the window length `min 8 start_idx`, which is an
upper bound for every recorded length, so the recorded-length bound follows
a fortiori.) -/
theorem matches_end_before_anchor (sd : List PricePoint) (si : Nat)
    (dict : List (Nat × Nat))
    (h : buildDict sd si (min 8 si) (movementOf (patternData sd si)) = some dict)
    (pl : Nat × Nat) (hm : pl ∈ dict) : pl.1 + pl.2 < si := by
  rcases buildDict_mem h hm with ⟨hlt, _h6, h8⟩
  have hpd := patternData_length_le sd si
  have hmv := movementOf_length (patternData sd si)
  have hmin : min (movementOf (patternData sd si)).length 8 ≤
      (movementOf (patternData sd si)).length := min_le_left _ _
  omega

theorem matches_end_before_anchor_witness :
    ((0, 8) ∈ ([(0, 8), (8, 8), (1, 7), (9, 7), (6, 6)] : List (Nat × Nat))) ∧
      (0 + 8 < 20) :=
  ⟨by decide, matches_end_before_anchor data30 20
    [(0, 8), (8, 8), (1, 7), (9, 7), (6, 6)] (by decide) (0, 8) (by decide)⟩

/-- C4: every returned projection's first point is exactly the anchor price
point: its price is `history[anchor_index].price` and its timestamp is
`history[anchor_index].timestamp`. -/
theorem projection_starts_at_anchor (sd : List PricePoint) (si fp nl : Nat)
    (projs : List Projection)
    (h : generate_future_projections_from_point sd si fp nl = .ok projs)
    (proj : Projection) (hp : proj ∈ projs) :
    proj.data.head? = some (sd.getD si defaultPoint) := by
  rcases engine_cases h with ⟨_, rfl⟩ | ⟨hsi, _hpd, hbd, hPL⟩
  · simp at hp
  · obtain ⟨pl, _hpl, _hlk, hok⟩ := forall₂_mem_right (engine_forall₂ hbd hPL) hp
    obtain ⟨P, D, hrl, hdata, _hplen⟩ := projOfKey_ok hok
    obtain ⟨ps', ds', rfl, rfl⟩ := reconLoop_head hrl
    rw [hdata]
    rfl

theorem projection_starts_at_anchor_witness :
    p30.data.head? = some (data30.getD 20 defaultPoint) :=
  projection_starts_at_anchor data30 20 3 2 P30 rfl p30 (by decide)

/-- C5: every returned projection (paired here with its backing match
`(position, length)`) consists of the anchor price followed by at most
`horizon` reconstructed prices, where step `j` multiplies the running price
by `1 + (price[k] - price[k+1]) / price[k+1]` with `k = position + length + j`,
stopping without padding at the first step whose second index leaves the
history; hence at most `horizon + 1` points. `specFuturePrices` is the
reference reconstruction written from the spec's wording. -/
theorem projection_prices_follow_historical_changes (sd : List PricePoint)
    (si fp nl : Nat) (projs : List Projection)
    (h : generate_future_projections_from_point sd si fp nl = .ok projs)
    (pr : (Nat × Nat) × Projection)
    (hpr : pr ∈ List.zip ((engineDict sd si).take nl) projs) :
    pr.2.data.map (fun pt => pt.close) =
      (sd.getD si defaultPoint).close ::
        specFuturePrices sd (pr.1.1 + pr.1.2) fp ((sd.getD si defaultPoint).close) ∧
    pr.2.data.length ≤ fp + 1 := by
  obtain ⟨pl, proj⟩ := pr
  rcases engine_cases h with ⟨hed, rfl⟩ | ⟨hsi, _hpd, hbd, hPL⟩
  · rw [hed] at hpr
    simp at hpr
  · have hR := List.forall₂_zip (engine_forall₂ hbd hPL) hpr
    obtain ⟨hlk, hok⟩ := hR
    obtain ⟨P, D, hrl, hdata, _hplen⟩ := projOfKey_ok hok
    rw [hlk] at hrl
    have hspec := reconLoop_spec hrl
    have hlen := reconLoop_length_le hrl
    have heq := reconLoop_length_eq (by rfl) hrl
    simp only [Option.getD_some] at hspec hlen heq
    constructor
    · rw [hdata, map_close_zipWith heq.symm, hspec]
      simp [Nat.add_zero]
    · rw [hdata]
      simp only [List.length_zipWith]
      simp only [List.length_singleton] at hlen
      omega

theorem projection_prices_follow_historical_changes_witness :
    ((0, 8), p30).2.data.map (fun pt => pt.close) =
      (data30.getD 20 defaultPoint).close ::
        specFuturePrices data30 ((0, 8).1 + (0, 8).2) 3
          ((data30.getD 20 defaultPoint).close) ∧
    ((0, 8), p30).2.data.length ≤ 3 + 1 :=
  projection_prices_follow_historical_changes data30 20 3 2 P30 rfl
    ((0, 8), p30) (by decide)

/-- C6: every returned projection's `pattern_length` lies in `[6, 8]`:
candidate lengths are tried from `min (len query) 8` down to 6, and only
such lengths are ever recorded or emitted. -/
theorem pattern_length_between_six_and_eight (sd : List PricePoint)
    (si fp nl : Nat) (projs : List Projection)
    (h : generate_future_projections_from_point sd si fp nl = .ok projs)
    (proj : Projection) (hp : proj ∈ projs) :
    6 ≤ proj.pattern_length ∧ proj.pattern_length ≤ 8 := by
  rcases engine_cases h with ⟨_, rfl⟩ | ⟨hsi, _hpd, hbd, hPL⟩
  · simp at hp
  · obtain ⟨pl, hpl, hlk, hok⟩ := forall₂_mem_right (engine_forall₂ hbd hPL) hp
    obtain ⟨P, D, _hrl, _hdata, hplen⟩ := projOfKey_ok hok
    have hmem : pl ∈ engineDict sd si := List.take_subset nl _ hpl
    rcases buildDict_mem hbd hmem with ⟨_hlt, h6, h8⟩
    have : proj.pattern_length = pl.2 := by rw [hplen, hlk]; rfl
    rw [this]
    exact ⟨h6, le_trans h8 (min_le_right _ _)⟩

theorem pattern_length_between_six_and_eight_witness :
    6 ≤ p30.pattern_length ∧ p30.pattern_length ≤ 8 :=
  pattern_length_between_six_and_eight data30 20 3 2 P30 rfl p30 (by decide)

/-- C7: an occurrence set contributes matches only when it has more than one
occurrence; in particular, when every candidate pattern length yields at most
one occurrence, the engine returns the empty sequence. -/
theorem unique_patterns_yield_empty (sd : List PricePoint) (si fp nl : Nat)
    (h : ∀ len ∈ candidateLengths (movementOf (patternData sd si)).length,
      (occurrencesFor sd (min 8 si) (movementOf (patternData sd si)) len).length ≤ 1) :
    generate_future_projections_from_point sd si fp nl = .ok [] := by
  by_cases h1 : sd.isEmpty = true ∨ sd.length ≤ si
  · rw [gen_eq, if_pos h1]
  · by_cases h2 : (patternData sd si).length ≤ 1
    · rw [gen_eq, if_neg h1, if_pos h2]
    · have hdl := dictLoop_no_insert sd si (min 8 si)
        (movementOf (patternData sd si))
        (candidateLengths (movementOf (patternData sd si)).length) [] h
      rcases hdl with hbd | hbd
      · rw [gen_eq, if_neg h1, if_neg h2]
        rw [show buildDict sd si (min 8 si) (movementOf (patternData sd si)) =
          none from hbd]
      · rw [gen_eq, if_neg h1, if_neg h2]
        rw [show buildDict sd si (min 8 si) (movementOf (patternData sd si)) =
          some [] from hbd]
        show projectionsLoop sd si fp [] (sd.getD si defaultPoint).close
          (sd.getD si defaultPoint).date
          ((List.map Prod.fst []).take nl) = .ok []
        rw [List.map_nil, List.take_nil]
        rfl

theorem unique_patterns_yield_empty_witness :
    (∀ len ∈ candidateLengths (movementOf (patternData data16 10)).length,
      (occurrencesFor data16 (min 8 10) (movementOf (patternData data16 10))
        len).length ≤ 1) ∧
    generate_future_projections_from_point data16 10 3 2 = .ok [] :=
  ⟨by decide, unique_patterns_yield_empty data16 10 3 2 (by decide)⟩

/-- C8: the engine returns at most `max_lines` projections, and they
correspond, in first-discovery order (decreasing pattern length, then
left-to-right position), to the first `max_lines` entries of the match
dictionary: the i-th projection's `pattern_length` is the i-th selected
entry's recorded length, so with `max_lines = 1` and several qualifying
matches exactly one projection is returned, for the first-discovered one. -/
theorem at_most_max_lines_in_discovery_order (sd : List PricePoint)
    (si fp nl : Nat) (projs : List Projection)
    (h : generate_future_projections_from_point sd si fp nl = .ok projs) :
    projs.length ≤ nl ∧
      projs.map (fun proj => proj.pattern_length) =
        ((engineDict sd si).take nl).map Prod.snd := by
  rcases engine_cases h with ⟨hed, rfl⟩ | ⟨hsi, _hpd, hbd, hPL⟩
  · rw [hed]
    simp
  · have hF := engine_forall₂ hbd hPL
    have hlen := hF.length_eq
    constructor
    · have htk : ((engineDict sd si).take nl).length ≤ nl := by
        rw [List.length_take]
        exact min_le_left _ _
      omega
    · symm
      refine forall₂_map_eq hF ?_
      intro pl proj hR
      obtain ⟨hlk, hok⟩ := hR
      obtain ⟨P, D, _hrl, _hdata, hplen⟩ := projOfKey_ok hok
      rw [hplen, hlk]
      rfl

theorem at_most_max_lines_in_discovery_order_witness :
    P30.length ≤ 2 ∧
      P30.map (fun proj => proj.pattern_length) =
        ((engineDict data30 20).take 2).map Prod.snd :=
  at_most_max_lines_in_discovery_order data30 20 3 2 P30 rfl

/-- C9: for every history and every anchor index below 2 (and every horizon
and max-lines), the engine returns an empty sequence. -/
theorem anchor_below_two_yields_empty (sd : List PricePoint) (si fp nl : Nat)
    (h : si < 2) :
    generate_future_projections_from_point sd si fp nl = .ok [] := by
  by_cases h1 : sd.isEmpty = true ∨ sd.length ≤ si
  · rw [gen_eq, if_pos h1]
  · have hsi : si < sd.length := by
      rcases Nat.lt_or_ge si sd.length with h' | h'
      · exact h'
      · exact absurd (Or.inr h') h1
    interval_cases si
    · rw [gen_eq, if_neg h1, if_pos (by rw [patternData_length sd 0 hsi]; omega)]
    · have hlen2 : ¬ ((patternData sd 1).length ≤ 1) := by
        rw [patternData_length sd 1 hsi]
        omega
      have hrs : (movementOf (patternData sd 1)).length = 1 := by
        rw [movementOf_length, patternData_length sd 1 hsi]
        omega
      have hbd : buildDict sd 1 (min 8 1) (movementOf (patternData sd 1)) =
          some [] := by
        unfold buildDict
        rw [hrs]
        rfl
      rw [gen_eq, if_neg h1, if_neg hlen2, hbd]
      show projectionsLoop sd 1 fp [] (sd.getD 1 defaultPoint).close
        (sd.getD 1 defaultPoint).date
        ((List.map Prod.fst []).take nl) = .ok []
      rw [List.map_nil, List.take_nil]
      rfl

theorem anchor_below_two_yields_empty_witness :
    1 < 2 ∧ generate_future_projections_from_point data16 1 3 2 = .ok [] :=
  ⟨by decide, anchor_below_two_yields_empty data16 1 3 2 (by decide)⟩

/-- C10: when every price in the history is strictly positive, the engine
never divides by zero and every price in every returned projection is
strictly positive — each reconstruction step multiplies the running price by
`price[k] / price[k+1]`, a positive factor, starting from the positive
anchor price. (Prices are modelled as exact rationals.) -/
theorem positive_prices_preserved (sd : List PricePoint) (si fp nl : Nat)
    (h : ∀ p ∈ sd, 0 < p.close) :
    ∃ projs, generate_future_projections_from_point sd si fp nl = .ok projs ∧
      ∀ proj ∈ projs, ∀ pt ∈ proj.data, 0 < pt.close := by
  have hz : ∀ p ∈ sd, p.close ≠ 0 := fun p hp => ne_of_gt (h p hp)
  rcases engine_ok_of_nonzero sd si fp nl hz with ⟨projs, hok⟩
  refine ⟨projs, hok, ?_⟩
  intro proj hp pt hpt
  rcases engine_cases hok with ⟨_, rfl⟩ | ⟨hsi, _hpd, hbd, hPL⟩
  · simp at hp
  · obtain ⟨pl, _hpl, _hlk, hokk⟩ := forall₂_mem_right (engine_forall₂ hbd hPL) hp
    obtain ⟨P, D, hrl, hdata, _hplen⟩ := projOfKey_ok hokk
    have hscpos : 0 < (sd.getD si defaultPoint).close := h _ (getD_mem hsi)
    have hPpos := reconLoop_pos h (by simp)
      (fun q hq => by rcases List.mem_singleton.mp hq with rfl; exact hscpos) hrl
    rw [hdata] at hpt
    exact hPpos _ (mem_zipWith_close hpt)

theorem positive_prices_preserved_witness :
    (∀ p ∈ data30, 0 < p.close) ∧
      ∃ projs, generate_future_projections_from_point data30 20 3 2 = .ok projs ∧
        ∀ proj ∈ projs, ∀ pt ∈ proj.data, 0 < pt.close :=
  ⟨by decide, positive_prices_preserved data30 20 3 2 (by decide)⟩
